import Mathlib

/-!
Shallow embedding of the yanor_core update scheduler.

The repository contains a tick-indexed event scheduler in two variants:
`src/update.rs` (whose `Updatable::update` takes an effect sink) and an
older copy in `src/lib.rs` (whose `update` takes no sink).  Entries pair a
`u32` scheduled time with an exclusively borrowed entity; the queue is a
`std::collections::BinaryHeap` (a max-heap) over entries whose `Ord`
instance reverses the comparison on `time`, yielding min-tick-first pops.

Embedding choices:
* `u32` values are `Nat`s; the one arithmetic operation on them,
  `info.time += dt`, is modelled as addition modulo `2^32` (`u32add`),
  the release-mode Rust semantics of `+=` on `u32`.
* Entities behind `&mut dyn Updatable` are modelled as a state type `α`
  together with an `Updatable α` record of pure transition functions;
  `update` receives the whole effect sink (as the Rust method receives
  `&mut Vec<Effect>`) and returns the delay, the new entity state and the
  new sink contents.
* `BinaryHeap` is std library code, so it is modelled by its contract: the
  queue is the list of entries it holds, `heapPush` inserts, and `heapPop`
  removes and returns an entry maximal for the entry `Ord` — i.e. one of
  minimal `time`.  Rust leaves the choice among equal-time entries
  unspecified; the model fixes the leftmost minimal entry, one of the
  behaviours the contract allows (no claim below depends on tie order).
-/

namespace Yanor

/-- Message kind, from `src/msg.rs` (`enum Kind`). -/
inductive Kind where
  | Display
  | Debug
  | Warning
  | Error
deriving DecidableEq, Repr

/-- Message importance, from `src/msg.rs` (`enum Importance`). -/
inductive Importance where
  | Hidden
  | Verbose
  | Low
  | Normal
  | High
  | VeryHigh
deriving DecidableEq, Repr

/-- Text color, from `src/msg.rs` (`enum Color`); the `u8` components of
`Rgb` are modelled as `Nat` (no arithmetic is ever performed on them). -/
inductive Color where
  | Default
  | White
  | Gray
  | Black
  | Red
  | Orange
  | Yellow
  | Green
  | Pink
  | Blue
  | Rgb (r g b : Nat)
deriving DecidableEq, Repr

/-- Styled text fragment, from `src/msg.rs` (`struct Text`). -/
structure Text where
  bold : Bool
  italic : Bool
  color : Color
  background_color : Color
  text : String
deriving DecidableEq, Repr

/-- Structured message, from `src/msg.rs` (`struct Message`). -/
structure Message where
  kind : Kind
  importance : Importance
  hidden : Bool
  contents : List Text
deriving DecidableEq, Repr

/-- `Message::normal` from `src/msg.rs`. -/
def Message.normal (contents : List Text) : Message :=
  { kind := Kind.Display
    importance := Importance.Normal
    hidden := false
    contents := contents }

/-- `Text::normal` from `src/msg.rs`. -/
def Text.normal (text : String) : Text :=
  { bold := false
    italic := false
    color := Color.Default
    background_color := Color.Default
    text := text }

/-- `Text::bold` from `src/msg.rs`. -/
def Text.bold_ (text : String) : Text :=
  { bold := true
    italic := false
    color := Color.Default
    background_color := Color.Default
    text := text }

/-- `Text::italic` from `src/msg.rs`. -/
def Text.italic_ (text : String) : Text :=
  { bold := false
    italic := true
    color := Color.Default
    background_color := Color.Default
    text := text }

/-- Externally observable outcome of one update call, from `src/update.rs`
(`enum Effect`); the only variant wraps a `Message`. -/
inductive Effect where
  | Log (m : Message)
deriving DecidableEq, Repr

/-- The `Updatable` trait of `src/update.rs`.  An implementor is a state
type `α` with the three trait methods as pure functions; `update` takes
the current state and the effect sink and returns the optional delay, the
mutated state and the sink contents after the call. -/
structure Updatable (α : Type) where
  update : α → List Effect → Option Nat × α × List Effect
  is_active : α → Bool
  deactivate : α → α

/-- `struct UpdateInfo` of `src/update.rs`: a scheduled time paired with
the (borrowed) entity, here the entity state itself. -/
structure UpdateInfo (α : Type) where
  time : Nat
  updatable : α
deriving DecidableEq, Repr

/-- `2^32`, the modulus of Rust `u32` arithmetic. -/
def U32_MOD : Nat := 4294967296

/-- Wrapping `u32` addition: the semantics of `info.time += dt` in
`src/update.rs` line 110 (and `src/lib.rs` line 101). -/
def u32add (a b : Nat) : Nat := (a + b) % U32_MOD

/-- Contract model of `BinaryHeap::pop` under the reversed `Ord` of
`UpdateInfo`: select the leftmost entry of minimal `time`, returning it
together with the remaining entries. -/
def findMin {α : Type} (i : UpdateInfo α) :
    List (UpdateInfo α) → UpdateInfo α × List (UpdateInfo α)
  | [] => (i, [])
  | j :: js =>
    if j.time < i.time then
      let r := findMin j js
      (r.1, i :: r.2)
    else
      let r := findMin i js
      (r.1, j :: r.2)

/-- `BinaryHeap::pop`: `none` on the empty heap, otherwise a minimal-time
entry and the rest. -/
def heapPop {α : Type} : List (UpdateInfo α) → Option (UpdateInfo α × List (UpdateInfo α))
  | [] => none
  | i :: is => some (findMin i is)

/-- `BinaryHeap::push` (used by `UpdateQueue::push` and by the reinsertion
in `UpdateQueue::update`). -/
def heapPush {α : Type} (info : UpdateInfo α) (q : List (UpdateInfo α)) :
    List (UpdateInfo α) :=
  q ++ [info]

/-- Fuel-indexed form of the pop-until-active loop of
`UpdateQueue::update` (`src/update.rs` lines 101-105): pop an entry; if
its entity is inactive, discard it and pop again.  Each iteration removes
one entry, so fuel equal to the queue length makes the fuel bound
unreachable (`findMin` preserves length); the `0, _ :: _` case is dead
code needed only for structural termination. -/
def popActiveGo {α : Type} (isact : α → Bool) :
    Nat → List (UpdateInfo α) → Option (UpdateInfo α × List (UpdateInfo α))
  | _, [] => none
  | 0, _ :: _ => none
  | fuel + 1, i :: is =>
    let r := findMin i is
    if isact r.1.updatable then some r else popActiveGo isact fuel r.2

/-- The pop-until-active loop of `UpdateQueue::update`: returns the first
active entry in min-time pop order together with the remaining queue, or
`none` when the queue runs out first (every discarded entry is dropped). -/
def popActive {α : Type} (isact : α → Bool) (q : List (UpdateInfo α)) :
    Option (UpdateInfo α × List (UpdateInfo α)) :=
  popActiveGo isact q.length q

/-- `UpdateQueue::update` from `src/update.rs` lines 100-115.  Pops until
an active entry is found (discarding inactive ones); if none is found the
queue is left empty and `none` is returned with the sink untouched.
Otherwise `now` is the popped entry's time, the entity's `update` runs on
the sink, a `some dt` result reinserts the updated entity at
`now + dt` (wrapping `u32` addition), and `some now` is returned. -/
def step {α : Type} (u : Updatable α) (q : List (UpdateInfo α))
    (effects : List Effect) : Option Nat × List (UpdateInfo α) × List Effect :=
  match popActive u.is_active q with
  | none => (none, [], effects)
  | some (info, q₁) =>
    match u.update info.updatable effects with
    | (some dt, s, es) =>
      (some info.time, heapPush { time := u32add info.time dt, updatable := s } q₁, es)
    | (none, _, es) => (some info.time, q₁, es)

/-- Repeated `UpdateQueue::update` calls (the external driving loop),
with fuel `n`: returns the list of returned ticks in call order (stopping
at the first `none`), the final queue and the final sink contents. -/
def run {α : Type} (u : Updatable α) :
    Nat → List (UpdateInfo α) → List Effect →
    List Nat × List (UpdateInfo α) × List Effect
  | 0, q, es => ([], q, es)
  | n + 1, q, es =>
    match step u q es with
    | (none, q₁, es₁) => ([], q₁, es₁)
    | (some t, q₁, es₁) =>
      let r := run u n q₁ es₁
      (t :: r.1, r.2.1, r.2.2)

namespace Lib

/-- The `Updatable` trait of the older scheduler copy in `src/lib.rs`
(lines 12-27): identical to `Yanor.Updatable` except that `update` takes
no effect sink. -/
structure Updatable (α : Type) where
  update : α → Option Nat × α
  is_active : α → Bool
  deactivate : α → α

/-- `UpdateQueue::update` from `src/lib.rs` lines 91-106: same algorithm
as `Yanor.step` without the effect sink.  `UpdateInfo` and the heap are
literally duplicated in `src/lib.rs` (lines 30-59, 77-79), so the model
shares `Yanor.UpdateInfo`, `heapPop`/`findMin` and `heapPush`. -/
def step {α : Type} (u : Updatable α) (q : List (UpdateInfo α)) :
    Option Nat × List (UpdateInfo α) :=
  match popActive u.is_active q with
  | none => (none, [])
  | some (info, q₁) =>
    match u.update info.updatable with
    | (some dt, s) =>
      (some info.time, heapPush { time := u32add info.time dt, updatable := s } q₁)
    | (none, _) => (some info.time, q₁)

/-- Repeated `src/lib.rs` `UpdateQueue::update` calls with fuel `n`. -/
def run {α : Type} (u : Updatable α) :
    Nat → List (UpdateInfo α) → List Nat × List (UpdateInfo α)
  | 0, q => ([], q)
  | n + 1, q =>
    match step u q with
    | (none, q₁) => ([], q₁)
    | (some t, q₁) =>
      let r := run u n q₁
      (t :: r.1, r.2)

end Lib

/-- Combined state space of the two dummy entities of `src/tests/update.rs`
(`struct Dummy1 { update_count, max_updates }` and
`struct Dummy2 { has_updated }`). -/
inductive DummyState where
  | dummy1 (update_count : Nat) (max_updates : Nat)
  | dummy2 (has_updated : Bool)
deriving DecidableEq, Repr

/-- The `Updatable` implementations of `Dummy1` and `Dummy2` from
`src/tests/update.rs` lines 18-55: `Dummy1` increments its counter (`u32`
increment) and returns delay 2 for its first `max_updates` calls, then
`None`; `Dummy2` returns delay 25 once, then `None`.  Both are always
active and neither touches the sink.  Their `deactivate` is
`unimplemented!()` (a panic) in the source and is never called by any
claim; it is stubbed as the identity here. -/
def dummyUpdatable : Updatable DummyState where
  update s effects :=
    match s with
    | DummyState.dummy1 c m =>
      let c₁ := u32add c 1
      if c₁ ≤ m then (some 2, DummyState.dummy1 c₁ m, effects)
      else (none, DummyState.dummy1 c₁ m, effects)
    | DummyState.dummy2 h =>
      if h then (none, DummyState.dummy2 h, effects)
      else (some 25, DummyState.dummy2 true, effects)
  is_active _ := true
  deactivate s := s

/-- The sink-free `Updatable` implementations of the identical dummies in
the `src/lib.rs` test module (lines 135-172). -/
def dummyLib : Lib.Updatable DummyState where
  update s :=
    match s with
    | DummyState.dummy1 c m =>
      let c₁ := u32add c 1
      if c₁ ≤ m then (some 2, DummyState.dummy1 c₁ m)
      else (none, DummyState.dummy1 c₁ m)
    | DummyState.dummy2 h =>
      if h then (none, DummyState.dummy2 h)
      else (some 25, DummyState.dummy2 true)
  is_active _ := true
  deactivate s := s

/-- Entity identity for the dummy scenario: which of the two test objects
a state belongs to (`Dummy1` and `Dummy2` are distinct objects in the
test, distinguished here by constructor). -/
def identDummy : DummyState → Nat
  | DummyState.dummy1 _ _ => 0
  | DummyState.dummy2 _ => 1

/-- `Messenger::new` from `src/tests/update.rs` lines 82-93: builds the
message "Message from <name> : <message>" with the given name in bold and
the message in italics. -/
def messengerMsg (name message : String) : Message :=
  Message.normal [Text.normal "Message from", Text.bold_ name,
    Text.normal ":", Text.italic_ message]

/-- The `Updatable` implementation of `Messenger` from
`src/tests/update.rs` lines 97-110: its state is its message; `update`
appends one `Effect::Log` of that message to the sink and returns `None`.
Always active; `deactivate` is `todo!()` (a panic) in the source, never
called by any claim, stubbed as the identity. -/
def messengerUpdatable : Updatable Message where
  update s effects := (none, s, effects ++ [Effect.Log s])
  is_active _ := true
  deactivate s := s

/-- A caller-supplied entity used to exercise `u32` wraparound: its first
update returns delay 1, its second returns `None`.  Always active. -/
inductive WrapState where
  | start
  | stopped
deriving DecidableEq, Repr

/-- The `Updatable` implementation of the wraparound entity. -/
def wrapUpdatable : Updatable WrapState where
  update s effects :=
    match s with
    | WrapState.start => (some 1, WrapState.stopped, effects)
    | WrapState.stopped => (none, WrapState.stopped, effects)
  is_active _ := true
  deactivate s := s

/-- The queue of the `ordering`/`update_queue_basic` tests: `Dummy1`
pushed at tick 10, then `Dummy2` pushed at tick 0. -/
def dummyQ : List (UpdateInfo DummyState) :=
  heapPush { time := 0, updatable := DummyState.dummy2 false }
    (heapPush { time := 10, updatable := DummyState.dummy1 0 10 } [])

/-- The queue of the `effects` test: messenger M1 pushed at tick 0, then
messenger M2 pushed at tick 1. -/
def msgQ : List (UpdateInfo Message) :=
  heapPush { time := 1, updatable := messengerMsg "tester" "testing" }
    (heapPush { time := 0, updatable := messengerMsg "Jessie" "Hello!" } [])

/-- A caller-supplied entity with an identity and an activity flag:
`update` always requests delay 5 and leaves the state and sink unchanged;
`is_active` reads the flag; `deactivate` clears it permanently. -/
structure FlagState where
  id : Nat
  active : Bool
deriving DecidableEq, Repr

/-- The `Updatable` implementation of the flagged entity. -/
def flagUpdatable : Updatable FlagState where
  update s effects := (some 5, s, effects)
  is_active s := s.active
  deactivate s := { s with active := false }

/-- A single `step` call performs no wrapping reinsertion: if it selects
entry `info` and the entity requests a further delay `dt`, then
`info.time + dt` stays below `2^32`. -/
def StepNoWrap {α : Type} (u : Updatable α) (q : List (UpdateInfo α))
    (es : List Effect) : Prop :=
  ∀ info q₁, popActive u.is_active q = some (info, q₁) →
    ∀ dt, (u.update info.updatable es).1 = some dt → info.time + dt < U32_MOD

/-- No wrapping reinsertion occurs during `n` consecutive `step` calls. -/
def RunNoWrap {α : Type} (u : Updatable α) :
    Nat → List (UpdateInfo α) → List Effect → Prop
  | 0, _, _ => True
  | n + 1, q, es =>
    StepNoWrap u q es ∧ RunNoWrap u n (step u q es).2.1 (step u q es).2.2

/-- During `n` consecutive `step` calls, no entity whose state satisfies
`bad` ever has its `update` invoked (the scheduler invokes `update`
exactly on the entry selected by the pop-until-active loop). -/
def NeverInvoked {α : Type} (u : Updatable α) (bad : α → Bool) :
    Nat → List (UpdateInfo α) → List Effect → Prop
  | 0, _, _ => True
  | n + 1, q, es =>
    (∀ info q₁, popActive u.is_active q = some (info, q₁) →
      bad info.updatable = false) ∧
    NeverInvoked u bad n (step u q es).2.1 (step u q es).2.2

theorem findMin_length {α : Type} (i : UpdateInfo α) (l : List (UpdateInfo α)) :
    (findMin i l).2.length = l.length := by
  induction l generalizing i with
  | nil => rfl
  | cons j js ih =>
    simp only [findMin]
    split
    · simpa using ih j
    · simpa using ih i

theorem findMin_perm {α : Type} (i : UpdateInfo α) (l : List (UpdateInfo α)) :
    List.Perm ((findMin i l).1 :: (findMin i l).2) (i :: l) := by
  induction l generalizing i with
  | nil => exact List.Perm.refl _
  | cons j js ih =>
    simp only [findMin]
    split
    · exact (List.Perm.swap i (findMin j js).1 (findMin j js).2).trans
        (List.Perm.cons i (ih j))
    · exact ((List.Perm.swap j (findMin i js).1 (findMin i js).2).trans
        (List.Perm.cons j (ih i))).trans (List.Perm.swap i j js)

theorem findMin_min {α : Type} (i : UpdateInfo α) (l : List (UpdateInfo α)) :
    ∀ x ∈ i :: l, (findMin i l).1.time ≤ x.time := by
  induction l generalizing i with
  | nil =>
    intro x hx
    rcases List.mem_singleton.mp hx with rfl
    exact Nat.le_refl _
  | cons j js ih =>
    intro x hx
    simp only [findMin]
    split
    · rename_i hlt
      rcases List.mem_cons.mp hx with h1 | hx2
      · rw [h1]
        exact Nat.le_of_lt (Nat.lt_of_le_of_lt (ih j j (List.mem_cons_self j js)) hlt)
      · exact ih j x hx2
    · rename_i hge
      rcases List.mem_cons.mp hx with h1 | hx2
      · rw [h1]
        exact ih i i (List.mem_cons_self i js)
      · rcases List.mem_cons.mp hx2 with h1 | hx3
        · rw [h1]
          exact Nat.le_trans (ih i i (List.mem_cons_self i js)) (Nat.le_of_not_lt hge)
        · exact ih i x (List.mem_cons.mpr (Or.inr hx3))

theorem popActiveGo_none_iff {α : Type} (f : α → Bool) :
    ∀ (fuel : Nat) (q : List (UpdateInfo α)), q.length ≤ fuel →
      (popActiveGo f fuel q = none ↔ ∀ x ∈ q, f x.updatable = false) := by
  intro fuel
  induction fuel with
  | zero =>
    intro q hq
    rcases List.length_eq_zero.mp (Nat.le_zero.mp hq) with rfl
    simp [popActiveGo]
  | succ n ih =>
    intro q hq
    match q with
    | [] => simp [popActiveGo]
    | i :: is =>
      simp only [popActiveGo]
      by_cases hact : f (findMin i is).1.updatable = true
      · simp only [hact, if_true]
        constructor
        · intro h; exact absurd h (by simp)
        · intro h
          have hmem : (findMin i is).1 ∈ i :: is :=
            (findMin_perm i is).mem_iff.mp (List.mem_cons_self _ _)
          exact absurd (h _ hmem) (by simp [hact])
      · have hact' : f (findMin i is).1.updatable = false := by
          simpa using hact
        simp only [hact', if_false, Bool.false_eq_true]
        have hlen : (findMin i is).2.length ≤ n := by
          rw [findMin_length]
          exact Nat.le_of_succ_le_succ (by simpa using hq)
        rw [ih (findMin i is).2 hlen]
        constructor
        · intro h x hx
          have hx' : x ∈ (findMin i is).1 :: (findMin i is).2 :=
            (findMin_perm i is).mem_iff.mpr hx
          rcases List.mem_cons.mp hx' with rfl | hx'
          · exact hact'
          · exact h x hx'
        · intro h x hx
          have hx' : x ∈ i :: is :=
            (findMin_perm i is).mem_iff.mp (List.mem_cons.mpr (Or.inr hx))
          exact h x hx'

theorem popActive_none_iff {α : Type} (f : α → Bool) (q : List (UpdateInfo α)) :
    popActive f q = none ↔ ∀ x ∈ q, f x.updatable = false :=
  popActiveGo_none_iff f q.length q (Nat.le_refl _)

theorem popActiveGo_some_spec {α : Type} (f : α → Bool) :
    ∀ (fuel : Nat) (q : List (UpdateInfo α)) (info : UpdateInfo α)
      (q₁ : List (UpdateInfo α)), q.length ≤ fuel →
      popActiveGo f fuel q = some (info, q₁) →
      f info.updatable = true ∧
      ∃ d, List.Perm q (d ++ info :: q₁) ∧
        (∀ x ∈ d, f x.updatable = false ∧ x.time ≤ info.time) ∧
        List.Chain' (fun a b => a.time ≤ b.time) (d ++ [info]) ∧
        (∀ x ∈ q₁, info.time ≤ x.time) := by
  intro fuel
  induction fuel with
  | zero =>
    intro q info q₁ hq h
    rcases List.length_eq_zero.mp (Nat.le_zero.mp hq) with rfl
    exact absurd h (by simp [popActiveGo])
  | succ n ih =>
    intro q info q₁ hq h
    match q with
    | [] => exact absurd h (by simp [popActiveGo])
    | i :: is =>
      simp only [popActiveGo] at h
      by_cases hact : f (findMin i is).1.updatable = true
      · rw [if_pos hact] at h
        have h1 : (findMin i is).1 = info := congrArg Prod.fst (Option.some.inj h)
        have h2 : (findMin i is).2 = q₁ := congrArg Prod.snd (Option.some.inj h)
        refine ⟨h1 ▸ hact, [], ?_, by simp, by simp, ?_⟩
        · simpa [h1, h2] using (findMin_perm i is).symm
        · intro x hx
          have hx' : x ∈ i :: is := (findMin_perm i is).mem_iff.mp
            (by rw [h2]; exact List.mem_cons.mpr (Or.inr hx))
          exact h1 ▸ findMin_min i is x hx'
      · rw [if_neg hact] at h
        have hlen : (findMin i is).2.length ≤ n := by
          rw [findMin_length]
          exact Nat.le_of_succ_le_succ (by simpa using hq)
        obtain ⟨hinfo, d, hperm, hd, hchain, hq₁⟩ := ih (findMin i is).2 info q₁ hlen h
        have hsub : ∀ y ∈ d ++ info :: q₁, y ∈ i :: is := by
          intro y hy
          exact (findMin_perm i is).mem_iff.mp
            (List.mem_cons.mpr (Or.inr (hperm.symm.mem_iff.mp hy)))
        have hmin1 : ∀ y ∈ d ++ [info], (findMin i is).1.time ≤ y.time := by
          intro y hy
          rcases List.mem_append.mp hy with hy | hy
          · exact findMin_min i is y (hsub y (List.mem_append.mpr (Or.inl hy)))
          · rcases List.mem_singleton.mp hy with rfl
            exact findMin_min i is y
              (hsub y (List.mem_append.mpr (Or.inr (List.mem_cons_self _ _))))
        have hact' : f (findMin i is).1.updatable = false := by simpa using hact
        refine ⟨hinfo, (findMin i is).1 :: d, ?_, ?_, ?_, hq₁⟩
        · simpa using ((findMin_perm i is).symm).trans (List.Perm.cons _ hperm)
        · intro x hx
          rcases List.mem_cons.mp hx with h1 | hx2
          · rw [h1]
            exact ⟨hact', hmin1 info (List.mem_append.mpr
              (Or.inr (List.mem_singleton.mpr rfl)))⟩
          · exact hd x hx2
        · rw [List.cons_append]
          rw [List.chain'_cons']
          refine ⟨?_, hchain⟩
          intro y hy
          exact hmin1 y (List.mem_of_mem_head? hy)

theorem popActive_some_spec {α : Type} {f : α → Bool} {q q₁ : List (UpdateInfo α)}
    {info : UpdateInfo α} (h : popActive f q = some (info, q₁)) :
    f info.updatable = true ∧
    ∃ d, List.Perm q (d ++ info :: q₁) ∧
      (∀ x ∈ d, f x.updatable = false ∧ x.time ≤ info.time) ∧
      List.Chain' (fun a b => a.time ≤ b.time) (d ++ [info]) ∧
      (∀ x ∈ q₁, info.time ≤ x.time) :=
  popActiveGo_some_spec f q.length q info q₁ (Nat.le_refl _) h

theorem popActive_some_mem {α : Type} {f : α → Bool} {q q₁ : List (UpdateInfo α)}
    {info : UpdateInfo α} (h : popActive f q = some (info, q₁)) :
    info ∈ q ∧ ∀ x ∈ q₁, x ∈ q := by
  obtain ⟨-, d, hperm, -, -, -⟩ := popActive_some_spec h
  constructor
  · exact hperm.mem_iff.mpr (List.mem_append.mpr (Or.inr (List.mem_cons_self _ _)))
  · intro x hx
    exact hperm.mem_iff.mpr
      (List.mem_append.mpr (Or.inr (List.mem_cons.mpr (Or.inr hx))))

theorem step_of_popActive_none {α : Type} (u : Updatable α)
    {q : List (UpdateInfo α)} (es : List Effect)
    (h : popActive u.is_active q = none) : step u q es = (none, [], es) := by
  simp [step, h]

theorem step_of_update_delay {α : Type} (u : Updatable α)
    {q q₁ : List (UpdateInfo α)} {es es₂ : List Effect} {info : UpdateInfo α}
    {dt : Nat} {s : α} (hpop : popActive u.is_active q = some (info, q₁))
    (hupd : u.update info.updatable es = (some dt, s, es₂)) :
    step u q es =
      (some info.time, heapPush { time := u32add info.time dt, updatable := s } q₁,
        es₂) := by
  simp [step, hpop, hupd]

theorem step_of_update_drop {α : Type} (u : Updatable α)
    {q q₁ : List (UpdateInfo α)} {es es₂ : List Effect} {info : UpdateInfo α}
    {s : α} (hpop : popActive u.is_active q = some (info, q₁))
    (hupd : u.update info.updatable es = (none, s, es₂)) :
    step u q es = (some info.time, q₁, es₂) := by
  simp [step, hpop, hupd]

theorem step_some_inv {α : Type} {u : Updatable α} {q q₁ : List (UpdateInfo α)}
    {es es₁ : List Effect} {t : Nat}
    (h : step u q es = (some t, q₁, es₁)) :
    ∃ info q₂, popActive u.is_active q = some (info, q₂) ∧ t = info.time ∧
      ((∃ dt s es₂, u.update info.updatable es = (some dt, s, es₂) ∧
          q₁ = heapPush { time := u32add info.time dt, updatable := s } q₂ ∧
          es₁ = es₂) ∨
       (∃ s es₂, u.update info.updatable es = (none, s, es₂) ∧ q₁ = q₂ ∧
          es₁ = es₂)) := by
  cases hpop : popActive u.is_active q with
  | none =>
    rw [step_of_popActive_none u es hpop] at h
    exact absurd (congrArg Prod.fst h) (by simp)
  | some p =>
    obtain ⟨info, q₂⟩ := p
    cases hupd : u.update info.updatable es with
    | mk d sp =>
      obtain ⟨s, es₂⟩ := sp
      cases d with
      | some dt =>
        rw [step_of_update_delay u hpop hupd] at h
        simp only [Prod.mk.injEq, Option.some.injEq] at h
        exact ⟨info, q₂, rfl, h.1.symm, Or.inl ⟨dt, s, es₂, hupd, h.2.1.symm,
          h.2.2.symm⟩⟩
      | none =>
        rw [step_of_update_drop u hpop hupd] at h
        simp only [Prod.mk.injEq, Option.some.injEq] at h
        exact ⟨info, q₂, rfl, h.1.symm, Or.inr ⟨s, es₂, hupd, h.2.1.symm,
          h.2.2.symm⟩⟩

theorem heapPush_mem {α : Type} {x info : UpdateInfo α} {q : List (UpdateInfo α)}
    (h : x ∈ heapPush info q) : x ∈ q ∨ x = info := by
  rcases List.mem_append.mp h with h | h
  · exact Or.inl h
  · exact Or.inr (List.mem_singleton.mp h)

/-- C1: every `step` call returning `some t` pops entries in ascending
scheduled-tick order, discards each popped inactive entry, invokes
`update` exactly on the first popped active entry, and `t` is that
entry's scheduled tick — the minimum tick among the entries present when
it was popped.  Formally: the queue splits (up to permutation) into the
discarded entries `d` (all inactive, popped in non-decreasing tick
order, all with ticks at most `t`), the selected active entry `info`
with `t = info.time`, and the remaining entries `q₂` (all with ticks at
least `t`), and the step's result is produced by the single `update`
call on `info`. -/
theorem yanor_C1 (α : Type) (u : Updatable α) (q q₁ : List (UpdateInfo α))
    (es es₁ : List Effect) (t : Nat)
    (h : step u q es = (some t, q₁, es₁)) :
    ∃ info q₂ d, popActive u.is_active q = some (info, q₂) ∧
      u.is_active info.updatable = true ∧
      t = info.time ∧
      List.Perm q (d ++ info :: q₂) ∧
      (∀ x ∈ d, u.is_active x.updatable = false ∧ x.time ≤ t) ∧
      List.Chain' (fun a b => a.time ≤ b.time) (d ++ [info]) ∧
      (∀ x ∈ q₂, t ≤ x.time) ∧
      ((∃ dt s es₂, u.update info.updatable es = (some dt, s, es₂) ∧
          q₁ = heapPush { time := u32add t dt, updatable := s } q₂ ∧
          es₁ = es₂) ∨
       (∃ s es₂, u.update info.updatable es = (none, s, es₂) ∧ q₁ = q₂ ∧
          es₁ = es₂)) := by
  obtain ⟨info, q₂, hpop, ht, hbr⟩ := step_some_inv h
  obtain ⟨hact, d, hperm, hd, hchain, hq₂⟩ := popActive_some_spec hpop
  subst ht
  exact ⟨info, q₂, d, hpop, hact, rfl, hperm, hd, hchain, hq₂, hbr⟩

/-- Witness for C1 at a concrete input: a queue holding only `Dummy2`
scheduled at tick 5. -/
theorem yanor_C1_witness :
    ∃ info q₂ d,
      popActive dummyUpdatable.is_active
        [{ time := 5, updatable := DummyState.dummy2 false }] =
        some (info, q₂) ∧
      dummyUpdatable.is_active info.updatable = true ∧
      (5 : Nat) = info.time ∧
      List.Perm [{ time := 5, updatable := DummyState.dummy2 false }]
        (d ++ info :: q₂) ∧
      (∀ x ∈ d, dummyUpdatable.is_active x.updatable = false ∧ x.time ≤ 5) ∧
      List.Chain' (fun a b => a.time ≤ b.time) (d ++ [info]) ∧
      (∀ x ∈ q₂, 5 ≤ x.time) ∧
      ((∃ dt s es₂, dummyUpdatable.update info.updatable [] = (some dt, s, es₂) ∧
          [{ time := 30, updatable := DummyState.dummy2 true }] =
            heapPush { time := u32add 5 dt, updatable := s } q₂ ∧
          ([] : List Effect) = es₂) ∨
       (∃ s es₂, dummyUpdatable.update info.updatable [] = (none, s, es₂) ∧
          [{ time := 30, updatable := DummyState.dummy2 true }] = q₂ ∧
          ([] : List Effect) = es₂)) :=
  yanor_C1 DummyState dummyUpdatable
    [{ time := 5, updatable := DummyState.dummy2 false }]
    [{ time := 30, updatable := DummyState.dummy2 true }] [] [] 5 (by decide)

/-- C5: `step` returns `none` exactly when the queue is exhausted before
an active entry is found — equivalently, when every entry in the queue
(vacuously, an empty queue) reports inactive; on an empty scheduler it
returns `none` with the sink untouched.  `step` is a total function with
no error channel, so this is its only terminal outcome. -/
theorem yanor_C5 (α : Type) (u : Updatable α) (q : List (UpdateInfo α))
    (es : List Effect) :
    ((step u q es).1 = none ↔ ∀ x ∈ q, u.is_active x.updatable = false) ∧
    step u ([] : List (UpdateInfo α)) es = (none, [], es) := by
  constructor
  · constructor
    · intro h
      cases hpop : popActive u.is_active q with
      | none => exact (popActive_none_iff u.is_active q).mp hpop
      | some p =>
        obtain ⟨info, q₂⟩ := p
        cases hupd : u.update info.updatable es with
        | mk d sp =>
          obtain ⟨s, es₂⟩ := sp
          cases d with
          | some dt =>
            rw [step_of_update_delay u hpop hupd] at h
            exact absurd h (by simp)
          | none =>
            rw [step_of_update_drop u hpop hupd] at h
            exact absurd h (by simp)
    · intro h
      have hpop : popActive u.is_active q = none :=
        (popActive_none_iff u.is_active q).mpr h
      rw [step_of_popActive_none u es hpop]
  · rfl

/-- Witness for C5: on the empty scheduler `step` reports `none`, by the
backward direction of the equivalence applied to the vacuous premise. -/
theorem yanor_C5_witness :
    (step dummyUpdatable ([] : List (UpdateInfo DummyState)) []).1 = none :=
  (yanor_C5 DummyState dummyUpdatable [] []).1.mpr
    (fun x hx => absurd hx (List.not_mem_nil x))

/-- C8: each `step` call invokes `update` on at most one entity — none
when it returns `none` (the sink is returned untouched), and exactly one
when it returns `some t`: the entry selected by the pop-until-active
loop, whose `is_active` was confirmed `true` in that same call, and whose
single `update` call determines the entire result.  Entities whose
`is_active` returned `false` in the call are only discarded, never
updated. -/
theorem yanor_C8 (α : Type) (u : Updatable α) (q : List (UpdateInfo α))
    (es : List Effect) :
    ((step u q es).1 = none → (step u q es).2.2 = es) ∧
    (∀ t, (step u q es).1 = some t →
      ∃ info q₂, popActive u.is_active q = some (info, q₂) ∧
        u.is_active info.updatable = true ∧ t = info.time ∧
        step u q es = (some info.time,
          (match (u.update info.updatable es).1 with
           | some dt => heapPush
               (UpdateInfo.mk (u32add info.time dt)
                 (u.update info.updatable es).2.1) q₂
           | none => q₂),
          (u.update info.updatable es).2.2)) := by
  constructor
  · intro h
    cases hpop : popActive u.is_active q with
    | none => rw [step_of_popActive_none u es hpop]
    | some p =>
      obtain ⟨info, q₂⟩ := p
      cases hupd : u.update info.updatable es with
      | mk d sp =>
        obtain ⟨s, es₂⟩ := sp
        cases d with
        | some dt =>
          rw [step_of_update_delay u hpop hupd] at h
          exact absurd h (by simp)
        | none =>
          rw [step_of_update_drop u hpop hupd] at h
          exact absurd h (by simp)
  · intro t ht
    have h : step u q es = (some t, (step u q es).2.1, (step u q es).2.2) := by
      rw [← ht]
    obtain ⟨info, q₂, hpop, ht2, hbr⟩ := step_some_inv h
    have hact := (popActive_some_spec hpop).1
    refine ⟨info, q₂, hpop, hact, ht2, ?_⟩
    rcases hbr with ⟨dt, s, es₂, hupd, hq, he⟩ | ⟨s, es₂, hupd, hq, he⟩
    · rw [step_of_update_delay u hpop hupd, hupd]
    · rw [step_of_update_drop u hpop hupd, hupd]

/-- Witness for C8 at a concrete input: the single-entity `Dummy2` queue;
the step returns `some 5` and the result is determined by the one update
call on the selected active entry. -/
theorem yanor_C8_witness :
    ∃ info q₂,
      popActive dummyUpdatable.is_active
        [{ time := 5, updatable := DummyState.dummy2 false }] =
        some (info, q₂) ∧
      dummyUpdatable.is_active info.updatable = true ∧ (5 : Nat) = info.time ∧
      step dummyUpdatable [{ time := 5, updatable := DummyState.dummy2 false }]
          [] =
        (some info.time,
          (match (dummyUpdatable.update info.updatable []).1 with
           | some dt => heapPush
               (UpdateInfo.mk (u32add info.time dt)
                 (dummyUpdatable.update info.updatable []).2.1) q₂
           | none => q₂),
          (dummyUpdatable.update info.updatable []).2.2) :=
  (yanor_C8 DummyState dummyUpdatable
    [{ time := 5, updatable := DummyState.dummy2 false }] []).2 5 (by decide)

/-- C9: reinsertion tick arithmetic is 32-bit modular.  When the
selected entry's `update` returns delay `dt`, the reinserted tick is
`(now + dt) mod 2^32`, and whenever `now + dt` reaches `2^32` (with
`now` and `dt` in `u32` range) the entity is rescheduled at a tick
numerically smaller than `now`. -/
theorem yanor_C9 (α : Type) (u : Updatable α) (q q₂ : List (UpdateInfo α))
    (es es₂ : List Effect) (info : UpdateInfo α) (dt : Nat) (s : α)
    (hpop : popActive u.is_active q = some (info, q₂))
    (hupd : u.update info.updatable es = (some dt, s, es₂))
    (htime : info.time < U32_MOD) (hdt : dt < U32_MOD) :
    step u q es = (some info.time,
      heapPush { time := (info.time + dt) % U32_MOD, updatable := s } q₂,
      es₂) ∧
    (U32_MOD ≤ info.time + dt → (info.time + dt) % U32_MOD < info.time) := by
  constructor
  · exact step_of_update_delay u hpop hupd
  · intro hge
    have e1 : (info.time + dt) % U32_MOD =
        (info.time + dt - U32_MOD) % U32_MOD := Nat.mod_eq_sub_mod hge
    have e2 : (info.time + dt - U32_MOD) % U32_MOD =
        info.time + dt - U32_MOD := Nat.mod_eq_of_lt (by omega)
    omega

/-- Witness for C9 at a concrete wrapping input: the wraparound entity
scheduled at tick `2^32 - 1` requesting delay 1 is reinserted at tick 0,
numerically below its popped tick. -/
theorem yanor_C9_witness :
    (step wrapUpdatable
        [{ time := 4294967295, updatable := WrapState.start }] [] =
      (some 4294967295,
        heapPush
          (UpdateInfo.mk ((4294967295 + 1) % U32_MOD) WrapState.stopped) [],
        []) ∧
    (U32_MOD ≤ 4294967295 + 1 → (4294967295 + 1) % U32_MOD < 4294967295)) :=
  yanor_C9 WrapState wrapUpdatable
    [{ time := 4294967295, updatable := WrapState.start }] [] [] []
    { time := 4294967295, updatable := WrapState.start } 1 WrapState.stopped
    (by decide) (by decide) (by decide) (by decide)

theorem step_queue_sources {α : Type} {u : Updatable α}
    {q : List (UpdateInfo α)} {es : List Effect} {x : UpdateInfo α}
    (hx : x ∈ (step u q es).2.1) :
    x ∈ q ∨ ∃ info q₂ dt s es₂,
      popActive u.is_active q = some (info, q₂) ∧
      u.update info.updatable es = (some dt, s, es₂) ∧
      x = UpdateInfo.mk (u32add info.time dt) s := by
  cases hpop : popActive u.is_active q with
  | none =>
    rw [step_of_popActive_none u es hpop] at hx
    exact absurd hx (List.not_mem_nil x)
  | some p =>
    obtain ⟨info, q₂⟩ := p
    cases hupd : u.update info.updatable es with
    | mk d sp =>
      obtain ⟨s, es₂⟩ := sp
      cases d with
      | some dt =>
        rw [step_of_update_delay u hpop hupd] at hx
        rcases heapPush_mem hx with hx | hx
        · exact Or.inl ((popActive_some_mem hpop).2 x hx)
        · exact Or.inr ⟨info, q₂, dt, s, es₂, rfl, hupd, hx⟩
      | none =>
        rw [step_of_update_drop u hpop hupd] at hx
        exact Or.inl ((popActive_some_mem hpop).2 x hx)

theorem step_preserves_no_ident {α : Type} {u : Updatable α} {ident : α → Nat}
    {k : Nat} (hpres : ∀ s es, ident ((u.update s es).2.1) = ident s)
    {q : List (UpdateInfo α)} {es : List Effect}
    (habs : ∀ x ∈ q, ident x.updatable ≠ k) :
    ∀ x ∈ (step u q es).2.1, ident x.updatable ≠ k := by
  intro x hx
  rcases step_queue_sources hx with hx | ⟨info, q₂, dt, s, es₂, hpop, hupd, hxe⟩
  · exact habs x hx
  · rw [hxe]
    have hpr := hpres info.updatable es
    rw [hupd] at hpr
    intro hk
    exact habs info (popActive_some_mem hpop).1 (by rw [← hpr]; exact hk)

theorem neverInvoked_of_absent {α : Type} (u : Updatable α) (ident : α → Nat)
    (k : Nat) (hpres : ∀ s es, ident ((u.update s es).2.1) = ident s) :
    ∀ (n : Nat) (q : List (UpdateInfo α)) (es : List Effect),
      (∀ x ∈ q, ident x.updatable ≠ k) →
      NeverInvoked u (fun a => ident a == k) n q es := by
  intro n
  induction n with
  | zero => intro q es _; trivial
  | succ m ih =>
    intro q es habs
    refine ⟨?_, ih _ _ (step_preserves_no_ident hpres habs)⟩
    intro info q₂ hpop
    exact beq_eq_false_iff_ne.mpr (habs info (popActive_some_mem hpop).1)

theorem step_preserves_inactive_ident {α : Type} {u : Updatable α}
    {ident : α → Nat} {k : Nat}
    (hpres : ∀ s es, ident ((u.update s es).2.1) = ident s)
    {q : List (UpdateInfo α)} {es : List Effect}
    (hinact : ∀ x ∈ q, ident x.updatable = k → u.is_active x.updatable = false) :
    ∀ x ∈ (step u q es).2.1, ident x.updatable = k →
      u.is_active x.updatable = false := by
  intro x hx hk
  rcases step_queue_sources hx with hx | ⟨info, q₂, dt, s, es₂, hpop, hupd, hxe⟩
  · exact hinact x hx hk
  · exfalso
    have hact := (popActive_some_spec hpop).1
    have hpr := hpres info.updatable es
    rw [hupd] at hpr
    rw [hxe] at hk
    have hik : ident info.updatable = k := by rw [← hpr]; exact hk
    have := hinact info (popActive_some_mem hpop).1 hik
    rw [hact] at this
    cases this

theorem neverInvoked_of_inactive {α : Type} (u : Updatable α) (ident : α → Nat)
    (k : Nat) (hpres : ∀ s es, ident ((u.update s es).2.1) = ident s) :
    ∀ (n : Nat) (q : List (UpdateInfo α)) (es : List Effect),
      (∀ x ∈ q, ident x.updatable = k → u.is_active x.updatable = false) →
      NeverInvoked u (fun a => ident a == k) n q es := by
  intro n
  induction n with
  | zero => intro q es _; trivial
  | succ m ih =>
    intro q es hinact
    refine ⟨?_, ih _ _ (step_preserves_inactive_ident hpres hinact)⟩
    intro info q₂ hpop
    have hact := (popActive_some_spec hpop).1
    refine beq_eq_false_iff_ne.mpr ?_
    intro hk
    have := hinact info (popActive_some_mem hpop).1 hk
    rw [hact] at this
    cases this

/-- C2 counterexample: for the wraparound entity popped at tick
`2^32 - 1` whose update returns delay 1, the stored reinsertion tick is
0, not `now + dt = 2^32` — so the claim "reinserted with scheduled tick
now + dt" fails at this input. -/
theorem yanor_C2_counterexample :
    (step wrapUpdatable [{ time := 4294967295, updatable := WrapState.start }]
        []).2.1 =
      [{ time := 0, updatable := WrapState.stopped }] ∧
    (4294967295 + 1 : Nat) ≠ 0 := by
  constructor
  · decide
  · decide

/-- C2 (amended): if the processed entity's update returns delay `dt`,
the same entity (its identity is preserved by `update`) is reinserted
with scheduled tick `(now + dt) mod 2^32` where `now` is the popped tick
(`dt` may be 0); if it returns no further updates, the entry is dropped
permanently and — provided no other queued entry carries the same
identity — no entity with that identity is ever invoked by any number of
subsequent `step` calls. -/
theorem yanor_C2 (α : Type) (u : Updatable α) (ident : α → Nat)
    (hpres : ∀ s es, ident ((u.update s es).2.1) = ident s)
    (q q₂ : List (UpdateInfo α)) (es : List Effect) (info : UpdateInfo α)
    (hpop : popActive u.is_active q = some (info, q₂)) :
    (∀ dt s es₂, u.update info.updatable es = (some dt, s, es₂) →
      step u q es = (some info.time,
        heapPush { time := u32add info.time dt, updatable := s } q₂, es₂) ∧
      ident s = ident info.updatable) ∧
    (∀ s es₂, u.update info.updatable es = (none, s, es₂) →
      step u q es = (some info.time, q₂, es₂) ∧
      ((∀ x ∈ q₂, ident x.updatable ≠ ident info.updatable) →
        ∀ n, NeverInvoked u (fun a => ident a == ident info.updatable) n q₂
          es₂)) := by
  constructor
  · intro dt s es₂ hupd
    refine ⟨step_of_update_delay u hpop hupd, ?_⟩
    have hpr := hpres info.updatable es
    rw [hupd] at hpr
    exact hpr
  · intro s es₂ hupd
    refine ⟨step_of_update_drop u hpop hupd, ?_⟩
    intro huniq n
    exact neverInvoked_of_absent u ident (ident info.updatable) hpres n q₂ es₂
      huniq

/-- Witness for C2 at concrete inputs: `Dummy2` popped at tick 0 is
reinserted at tick `(0 + 25) mod 2^32 = 25`; after its second update
drops it, it is never invoked again. -/
theorem yanor_C2_witness :
    (step dummyUpdatable [{ time := 0, updatable := DummyState.dummy2 false }]
        [] =
      (some 0,
        heapPush { time := u32add 0 25, updatable := DummyState.dummy2 true }
          [], []) ∧
    NeverInvoked dummyUpdatable (fun a => identDummy a == 1) 2 [] []) := by
  constructor
  · exact ((yanor_C2 DummyState dummyUpdatable identDummy
      (by
        intro s es
        cases s with
        | dummy1 c m =>
          by_cases h : u32add c 1 ≤ m <;> simp [dummyUpdatable, identDummy, h]
        | dummy2 h => cases h <;> simp [dummyUpdatable, identDummy])
      [{ time := 0, updatable := DummyState.dummy2 false }] []
      [] { time := 0, updatable := DummyState.dummy2 false } (by decide)).1
      25 (DummyState.dummy2 true) [] (by decide)).1
  · exact ((yanor_C2 DummyState dummyUpdatable identDummy
      (by
        intro s es
        cases s with
        | dummy1 c m =>
          by_cases h : u32add c 1 ≤ m <;> simp [dummyUpdatable, identDummy, h]
        | dummy2 h => cases h <;> simp [dummyUpdatable, identDummy])
      [{ time := 3, updatable := DummyState.dummy2 true }] []
      [] { time := 3, updatable := DummyState.dummy2 true } (by decide)).2
      (DummyState.dummy2 true) [] (by decide)).2
      (fun x hx => absurd hx (List.not_mem_nil x)) 2

/-- C4: an entity that reports inactive while queued (identified through
`ident`, which `update` preserves) is never invoked over any number of
`step` calls, and its entry is removed exactly the first time a step
call encounters it as a minimum-tick entry, not before: it survives any
step whose returned tick is strictly below its scheduled tick; it is
discarded by any step whose returned tick is strictly above its
scheduled tick (the pop loop passed its tick, so it was popped as a
then-minimal entry and dropped) and by any step that exhausts the queue
(which empties storage entirely); and whenever a step removed it, that
step returned a tick at least its scheduled tick or exhausted the
queue.  (At an exact tie with the returned tick, discard-now-or-later
follows the container's unspecified equal-tick order.) -/
theorem yanor_C4 (α : Type) (u : Updatable α) (ident : α → Nat) (k : Nat)
    (hpres : ∀ s es, ident ((u.update s es).2.1) = ident s)
    (q : List (UpdateInfo α)) (es : List Effect)
    (hinact : ∀ x ∈ q, ident x.updatable = k → u.is_active x.updatable = false) :
    (∀ n, NeverInvoked u (fun a => ident a == k) n q es) ∧
    (∀ j, j ∈ q → ident j.updatable = k →
      (∀ t, (step u q es).1 = some t → t < j.time → j ∈ (step u q es).2.1) ∧
      (∀ t, (step u q es).1 = some t → j.time < t → j ∉ (step u q es).2.1) ∧
      ((step u q es).1 = none → (step u q es).2.1 = []) ∧
      (j ∉ (step u q es).2.1 →
        ((step u q es).1 = none ∨
         ∃ t, (step u q es).1 = some t ∧ j.time ≤ t))) := by
  constructor
  · intro n
    exact neverInvoked_of_inactive u ident k hpres n q es hinact
  · intro j hj hk
    cases hpop : popActive u.is_active q with
    | none =>
      rw [step_of_popActive_none u es hpop]
      exact ⟨fun t ht => absurd ht (by simp), fun t ht => absurd ht (by simp),
        fun _ => rfl, fun _ => Or.inl rfl⟩
    | some p =>
      obtain ⟨info, q₂⟩ := p
      obtain ⟨hact, d, hperm, hd, hchain, hq₂⟩ := popActive_some_spec hpop
      have hjne : j ≠ info := by
        intro he
        have := hinact j hj hk
        rw [he, hact] at this
        cases this
      have hkinfo : ident info.updatable ≠ k := by
        intro he
        have := hinact info (popActive_some_mem hpop).1 he
        rw [hact] at this
        cases this
      have hfacts : (step u q es).1 = some info.time ∧
          (∀ x ∈ q₂, x ∈ (step u q es).2.1) ∧
          (∀ x ∈ (step u q es).2.1,
            x ∈ q₂ ∨ ident x.updatable = ident info.updatable) := by
        cases hupd : u.update info.updatable es with
        | mk dd sp =>
          obtain ⟨s, es₂⟩ := sp
          cases dd with
          | some dt =>
            rw [step_of_update_delay u hpop hupd]
            refine ⟨rfl, fun x hx => List.mem_append.mpr (Or.inl hx), ?_⟩
            intro x hx
            rcases heapPush_mem hx with hx | hx
            · exact Or.inl hx
            · refine Or.inr ?_
              rw [hx]
              have hpr := hpres info.updatable es
              rw [hupd] at hpr
              exact hpr
          | none =>
            rw [step_of_update_drop u hpop hupd]
            exact ⟨rfl, fun x hx => hx, fun x hx => Or.inl hx⟩
      have hj' := hperm.mem_iff.mp hj
      refine ⟨?_, ?_, ?_, ?_⟩
      · intro t ht htlt
        rw [hfacts.1] at ht
        have ht' : t = info.time := (Option.some.inj ht).symm
        rcases List.mem_append.mp hj' with hjd | hjc
        · exact absurd (ht' ▸ (hd j hjd).2) (by omega)
        · rcases List.mem_cons.mp hjc with hje | hjq
          · exact absurd hje hjne
          · exact hfacts.2.1 j hjq
      · intro t ht htgt hjin
        rw [hfacts.1] at ht
        have ht' : info.time = t := Option.some.inj ht
        rcases hfacts.2.2 j hjin with hjq | hident
        · have hge := hq₂ j hjq
          omega
        · rw [hident] at hk
          exact hkinfo hk
      · intro hn
        rw [hfacts.1] at hn
        exact absurd hn (by simp)
      · intro hnot
        rcases List.mem_append.mp hj' with hjd | hjc
        · exact Or.inr ⟨info.time, hfacts.1, (hd j hjd).2⟩
        · rcases List.mem_cons.mp hjc with hje | hjq
          · exact absurd hje hjne
          · exact absurd (hfacts.2.1 j hjq) hnot

/-- Witness for C4 at concrete inputs: a deactivated flagged entity
(id 7) scheduled at tick 3.  Alongside an active entity at tick 1 it is
never invoked over three steps, and the step returning tick 1 leaves it
in storage; alongside an active entity at tick 5 the step returning
tick 5 encounters it first as the minimum-tick entry and removes it. -/
theorem yanor_C4_witness :
    (NeverInvoked flagUpdatable (fun a => FlagState.id a == 7) 3
      [{ time := 3, updatable := { id := 7, active := false } },
       { time := 1, updatable := { id := 9, active := true } }] [] ∧
    { time := 3, updatable := ({ id := 7, active := false } : FlagState) } ∈
      (step flagUpdatable
        [{ time := 3, updatable := { id := 7, active := false } },
         { time := 1, updatable := { id := 9, active := true } }] []).2.1 ∧
    { time := 3, updatable := ({ id := 7, active := false } : FlagState) } ∉
      (step flagUpdatable
        [{ time := 3, updatable := { id := 7, active := false } },
         { time := 5, updatable := { id := 9, active := true } }] []).2.1) := by
  refine ⟨?_, ?_, ?_⟩
  · exact (yanor_C4 FlagState flagUpdatable FlagState.id 7 (fun s es => rfl)
      [{ time := 3, updatable := { id := 7, active := false } },
       { time := 1, updatable := { id := 9, active := true } }] []
      (by decide)).1 3
  · exact ((yanor_C4 FlagState flagUpdatable FlagState.id 7 (fun s es => rfl)
      [{ time := 3, updatable := { id := 7, active := false } },
       { time := 1, updatable := { id := 9, active := true } }] []
      (by decide)).2
      { time := 3, updatable := { id := 7, active := false } }
      (by decide) rfl).1 1 (by decide) (by decide)
  · exact ((yanor_C4 FlagState flagUpdatable FlagState.id 7 (fun s es => rfl)
      [{ time := 3, updatable := { id := 7, active := false } },
       { time := 5, updatable := { id := 9, active := true } }] []
      (by decide)).2
      { time := 3, updatable := { id := 7, active := false } }
      (by decide) rfl).2.1 5 (by decide) (by decide)

theorem step_some_time_mem {α : Type} {u : Updatable α}
    {q q₁ : List (UpdateInfo α)} {es es₁ : List Effect} {t : Nat}
    (h : step u q es = (some t, q₁, es₁)) : ∃ x ∈ q, x.time = t := by
  obtain ⟨info, q₂, hpop, ht, -⟩ := step_some_inv h
  exact ⟨info, (popActive_some_mem hpop).1, ht.symm⟩

theorem step_nowrap_lb {α : Type} {u : Updatable α} {q q₁ : List (UpdateInfo α)}
    {es es₁ : List Effect} {t : Nat} (hnw : StepNoWrap u q es)
    (h : step u q es = (some t, q₁, es₁)) : ∀ x ∈ q₁, t ≤ x.time := by
  obtain ⟨info, q₂, hpop, ht, hbr⟩ := step_some_inv h
  obtain ⟨-, -, -, -, -, hq₂⟩ := popActive_some_spec hpop
  subst ht
  rcases hbr with ⟨dt, s, es₂, hupd, hq, -⟩ | ⟨s, es₂, hupd, hq, -⟩
  · subst hq
    intro x hx
    rcases heapPush_mem hx with hx | hx
    · exact hq₂ x hx
    · have hfst : (u.update info.updatable es).1 = some dt := by rw [hupd]
      have hlt := hnw info q₂ hpop dt hfst
      rw [hx]
      show info.time ≤ u32add info.time dt
      rw [u32add, Nat.mod_eq_of_lt hlt]
      exact Nat.le_add_right _ _
  · subst hq
    exact hq₂

theorem run_first_mem {α : Type} {u : Updatable α} {q : List (UpdateInfo α)}
    {es : List Effect} {n : Nat} {t : Nat}
    (h : (run u n q es).1.head? = some t) : ∃ x ∈ q, x.time = t := by
  cases n with
  | zero => exact absurd h (by simp [run])
  | succ m =>
    rcases hs : step u q es with ⟨r, q₁, es₁⟩
    cases r with
    | none =>
      rw [show run u (m + 1) q es = ([], q₁, es₁) by simp [run, hs]] at h
      exact absurd h (by simp)
    | some t₁ =>
      have hr : (run u (m + 1) q es).1 = t₁ :: (run u m q₁ es₁).1 := by
        simp [run, hs]
      rw [hr] at h
      have : t = t₁ := (Option.some.inj h).symm
      subst this
      exact step_some_time_mem hs

/-- C3 counterexample: one entity pushed at tick `2^32 - 1` whose update
returns delay 1 yields the returned tick sequence `[2^32 - 1, 0]`, which
is not non-decreasing — the claim fails for this push sequence because
the reinsertion tick wraps modulo `2^32`. -/
theorem yanor_C3_counterexample :
    (run wrapUpdatable 3 [{ time := 4294967295, updatable := WrapState.start }]
        []).1 = [4294967295, 0] ∧
    ¬ List.Chain' (fun a b => a ≤ b)
      (run wrapUpdatable 3
        [{ time := 4294967295, updatable := WrapState.start }] []).1 := by
  refine ⟨by decide, ?_⟩
  intro h
  rw [show (run wrapUpdatable 3
    [{ time := 4294967295, updatable := WrapState.start }] []).1 =
    [4294967295, 0] by decide] at h
  rw [List.chain'_cons] at h
  omega

/-- C3 (amended): for every sequence of push operations followed by
repeated `step` calls during which no reinsertion wraps past `2^32`
(each rescheduling satisfies `now + dt < 2^32`), the sequence of tick
values returned by the `step` calls is non-decreasing. -/
theorem yanor_C3 (α : Type) (u : Updatable α) (n : Nat)
    (q : List (UpdateInfo α)) (es : List Effect) (h : RunNoWrap u n q es) :
    List.Chain' (fun a b => a ≤ b) (run u n q es).1 := by
  induction n generalizing q es with
  | zero => simp [run]
  | succ m ih =>
    obtain ⟨hnw, hrest⟩ := h
    rcases hs : step u q es with ⟨r, q₁, es₁⟩
    rw [hs] at hrest
    cases r with
    | none => simp [run, hs]
    | some t =>
      have hr : (run u (m + 1) q es).1 = t :: (run u m q₁ es₁).1 := by
        simp [run, hs]
      rw [hr, List.chain'_cons']
      refine ⟨?_, ih q₁ es₁ hrest⟩
      intro y hy
      obtain ⟨x, hxq, hxt⟩ := run_first_mem hy
      rw [← hxt]
      exact step_nowrap_lb hnw hs x hxq

/-- Witness for C3 at a concrete input: the messenger scenario never
reinserts (every update returns no delay), so no reinsertion wraps, and
its returned ticks are non-decreasing. -/
theorem yanor_C3_witness :
    List.Chain' (fun a b => a ≤ b) (run messengerUpdatable 3 msgQ []).1 :=
  yanor_C3 Message messengerUpdatable 3 msgQ []
    (by
      have hnw : ∀ (q : List (UpdateInfo Message)) (es : List Effect),
          StepNoWrap messengerUpdatable q es := by
        intro q es info q₁ hp dt hdt
        simp [messengerUpdatable] at hdt
      exact ⟨hnw _ _, hnw _ _, hnw _ _, trivial⟩)

theorem step_append {α : Type} {u : Updatable α}
    (happ : ∀ s es0, ∃ out, u.update s es0 =
      ((u.update s es0).1, (u.update s es0).2.1, es0 ++ out))
    (q : List (UpdateInfo α)) (es : List Effect) :
    ∃ tail, (step u q es).2.2 = es ++ tail := by
  cases hpop : popActive u.is_active q with
  | none =>
    refine ⟨[], ?_⟩
    rw [step_of_popActive_none u es hpop]
    simp
  | some p =>
    obtain ⟨info, q₂⟩ := p
    obtain ⟨out, hout⟩ := happ info.updatable es
    have h22 : (u.update info.updatable es).2.2 = es ++ out :=
      congrArg (fun r => r.2.2) hout
    cases hupd : u.update info.updatable es with
    | mk d sp =>
      obtain ⟨s, es₂⟩ := sp
      rw [hupd] at h22
      cases d with
      | some dt =>
        rw [step_of_update_delay u hpop hupd]
        exact ⟨out, h22⟩
      | none =>
        rw [step_of_update_drop u hpop hupd]
        exact ⟨out, h22⟩

theorem run_append {α : Type} {u : Updatable α}
    (happ : ∀ s es0, ∃ out, u.update s es0 =
      ((u.update s es0).1, (u.update s es0).2.1, es0 ++ out)) :
    ∀ (n : Nat) (q : List (UpdateInfo α)) (es : List Effect),
      ∃ tail, (run u n q es).2.2 = es ++ tail := by
  intro n
  induction n with
  | zero =>
    intro q es
    exact ⟨[], by simp [run]⟩
  | succ m ih =>
    intro q es
    obtain ⟨t1, ht1⟩ := step_append happ q es
    rcases hs : step u q es with ⟨r, q₁, es₁⟩
    rw [hs] at ht1
    cases r with
    | none =>
      refine ⟨t1, ?_⟩
      rw [show run u (m + 1) q es = ([], q₁, es₁) by simp [run, hs]]
      exact ht1
    | some t =>
      obtain ⟨t2, ht2⟩ := ih q₁ es₁
      refine ⟨t1 ++ t2, ?_⟩
      have hr : (run u (m + 1) q es).2.2 = (run u m q₁ es₁).2.2 := by
        simp [run, hs]
      have ht1a : es₁ = es ++ t1 := ht1
      rw [hr, ht2, ht1a, List.append_assoc]

/-- C6: the scheduler only appends to the effect sink, through the single
invoked entity's update call.  Generally, whenever every entity update
only appends to the sink it receives, the sink after any number of
`step` calls is the original sink plus a trailing batch — nothing already
in it is removed, modified or reordered.  Concretely, for messengers M1
pushed at tick 0 and M2 pushed at tick 1, each logging one message,
running to exhaustion processes M1 then M2 and drains
`[M1's message, M2's message]` in that order. -/
theorem yanor_C6 :
    (∀ (α : Type) (u : Updatable α) (q : List (UpdateInfo α))
      (es : List Effect),
      (∀ s es0, ∃ out, u.update s es0 =
        ((u.update s es0).1, (u.update s es0).2.1, es0 ++ out)) →
      ∀ n, ∃ tail, (run u n q es).2.2 = es ++ tail) ∧
    ((run messengerUpdatable 3 msgQ []).1 = [0, 1] ∧
     (run messengerUpdatable 3 msgQ []).2.2 =
       [Effect.Log (messengerMsg "Jessie" "Hello!"),
        Effect.Log (messengerMsg "tester" "testing")]) := by
  refine ⟨?_, by decide, by decide⟩
  intro α u q es happ n
  exact run_append happ n q es

/-- Witness for C6: the messenger implementation satisfies the
append-only hypothesis, so after one step the sink extends the (empty)
initial sink. -/
theorem yanor_C6_witness :
    ∃ tail, (run messengerUpdatable 2 msgQ []).2.2 = [] ++ tail :=
  yanor_C6.1 Message messengerUpdatable msgQ []
    (fun s _ => ⟨[Effect.Log s], rfl⟩) 2

/-- C7: with only entity A (`Dummy1`, pushed at tick 10, delay 2 for its
first 10 updates then no further updates) and entity B (`Dummy2`, pushed
at tick 0, delay 25 once then no further updates), repeated `step` calls
return exactly the ticks 0, 10, 12, 14, 16, 18, 20, 22, 24, 25, 26, 28,
30, and the next `step` call returns `none`. -/
theorem yanor_C7 :
    run dummyUpdatable 14 dummyQ [] =
      ([0, 10, 12, 14, 16, 18, 20, 22, 24, 25, 26, 28, 30], [], []) ∧
    (step dummyUpdatable (run dummyUpdatable 13 dummyQ []).2.1
      (run dummyUpdatable 13 dummyQ []).2.2).1 = none := by
  exact ⟨by decide, by decide⟩

/-- C10: the two scheduler implementations (`src/lib.rs` without an
effect sink and `src/update.rs` with one) are behaviourally equivalent
on ticks: for entities whose `is_active` results and whose update delay
and successor-state results agree (the latter independent of the sink),
identical queues driven by the same number of `step` calls return
identical tick sequences. -/
theorem yanor_C10 (α : Type) (u : Updatable α) (l : Lib.Updatable α)
    (hact : ∀ s, u.is_active s = l.is_active s)
    (hupd : ∀ s es, (u.update s es).1 = (l.update s).1 ∧
      (u.update s es).2.1 = (l.update s).2)
    (n : Nat) (q : List (UpdateInfo α)) (es : List Effect) :
    (run u n q es).1 = (Lib.run l n q).1 := by
  have hfa : u.is_active = l.is_active := funext hact
  induction n generalizing q es with
  | zero => rfl
  | succ m ih =>
    cases hpop : popActive u.is_active q with
    | none =>
      have hpop2 : popActive l.is_active q = none := by rw [← hfa]; exact hpop
      have hs : step u q es = (none, [], es) := step_of_popActive_none u es hpop
      have hls : Lib.step l q = (none, []) := by simp [Lib.step, hpop2]
      simp [run, Lib.run, hs, hls]
    | some p =>
      obtain ⟨info, q₂⟩ := p
      have hpop2 : popActive l.is_active q = some (info, q₂) := by
        rw [← hfa]; exact hpop
      cases hu : u.update info.updatable es with
      | mk d sp =>
        obtain ⟨s, es₂⟩ := sp
        have h1 : (l.update info.updatable).1 = d := by
          have h := (hupd info.updatable es).1
          rw [hu] at h
          exact h.symm
        have h2 : (l.update info.updatable).2 = s := by
          have h := (hupd info.updatable es).2
          rw [hu] at h
          exact h.symm
        cases d with
        | some dt =>
          have hl : l.update info.updatable = (some dt, s) := by
            rw [← h1, ← h2]
          have hs : step u q es = (some info.time,
              heapPush { time := u32add info.time dt, updatable := s } q₂,
              es₂) := step_of_update_delay u hpop hu
          have hls : Lib.step l q = (some info.time,
              heapPush { time := u32add info.time dt, updatable := s } q₂) := by
            simp [Lib.step, hpop2, hl]
          simp [run, Lib.run, hs, hls, ih]
        | none =>
          have hl : l.update info.updatable = (none, s) := by
            rw [← h1, ← h2]
          have hs : step u q es = (some info.time, q₂, es₂) :=
            step_of_update_drop u hpop hu
          have hls : Lib.step l q = (some info.time, q₂) := by
            simp [Lib.step, hpop2, hl]
          simp [run, Lib.run, hs, hls, ih]

/-- Witness for C10: the dummy entities implemented against both traits
(as in the two test modules) produce identical tick sequences from the
shared initial queue. -/
theorem yanor_C10_witness :
    (run dummyUpdatable 14 dummyQ []).1 = (Lib.run dummyLib 14 dummyQ).1 :=
  yanor_C10 DummyState dummyUpdatable dummyLib (fun s => rfl)
    (fun s es => by
      cases s with
      | dummy1 c m =>
        by_cases h : u32add c 1 ≤ m <;> simp [dummyUpdatable, dummyLib, h]
      | dummy2 h => cases h <;> simp [dummyUpdatable, dummyLib])
    14 dummyQ []

end Yanor
